import Mathlib

/-!
Verification development for the `otk` tree-transformation core
(`src/otk/transform.py`).

The embedding models the module's four resolvers (`resolve`, `resolve_dict`,
`resolve_list`, `resolve_str`) and the directive dispatch performed inside
`resolve_dict`, together with the data model of document trees.

Modelling decisions, each justified next to the definition it concerns:

* Python recursion is modelled with an explicit fuel parameter; entering
  `resolve` consumes one unit and all inner calls of one activation run on the
  remaining fuel.  Exhaustion is the distinct error value `Err.outOfFuel`.
* Runtime failures of the Python draft are modelled as explicit error values:
  `Err.pyTypeError` for calls that raise `TypeError` (a keyword argument that
  is not a field of `ParserState`, and `resolve` invoked with two arguments
  where three are required) and `Err.pyNameError` for the undefined names
  (`path` inside `include`, which is reached before the unimported `copy`
  module would be).
* The collaborators that live outside this file's source (`directive.desugar`,
  `external.call`) are modelled from the spec, marked as such below.
* The mutable `Context` variable store is passed as a read-only `Scope`
  parameter: the only code paths that would write to it (`otk.define`
  handling, and the `in_define` branch for plain keys) raise before any write,
  so no reachable execution mutates the store.
-/

/-- Document Tree Node: the closed sum of values the resolver handles, per the
type dispatch in `resolve` (dict / list / str / int / float / bool / None).
Numbers are modelled by `Int`; the `else` branch of `resolve` (any other
native type) cannot occur for values of this closed type. -/
inductive Node where
  | str : String → Node
  | num : Int → Node
  | bool : Bool → Node
  | null : Node
  | dict : List (String × Node) → Node
  | list : List Node → Node

/-- Error taxonomy: the spec's error vocabulary (section 7) together with the
Python runtime failures the source actually raises, and fuel exhaustion. -/
inductive Err where
  | structuralError
  | unknownDirectiveError
  | unknownOperationError
  | unknownExternalError
  | undefinedVariableError
  | includeResolutionError
  | includeCycleError
  | unsupportedNodeKind
  | pyTypeError
  | pyNameError
  | pyKeyError
  | outOfFuel
  deriving DecidableEq

/-- ParserState from the source: a dataclass with fields `path` and
`in_define`. -/
structure ParserState where
  path : String
  in_define : Bool

/-- The variable store carried by the `Context` collaborator: an ordered
name-to-value association. -/
abbrev Scope := List (String × Node)

/-- Executable model of Python's `str.startswith`. -/
def strStartsWith (s p : String) : Bool := p.data.isPrefixOf s.data

/-- Executable model of Python's `str.endswith`. -/
def strEndsWith (s p : String) : Bool := p.data.isSuffixOf s.data

/-- Key classifier for `key.startswith("otk.")`. -/
def otkKey (k : String) : Bool := strStartsWith k ("otk.")

/-- Key classifier for `key.startswith("otk.define")`. -/
def defineKey (k : String) : Bool := strStartsWith k ("otk.define")

/-- Key classifier for `key == "otk.version"`. -/
def versionKey (k : String) : Bool := k == ("otk.version")

/-- Key classifier for `key.startswith("otk.target")`. -/
def targetKey (k : String) : Bool := strStartsWith k ("otk.target")

/-- Key classifier for `key.startswith("otk.include")`. -/
def includeKey (k : String) : Bool := strStartsWith k ("otk.include")

/-- Key classifier for `key.startswith("otk.op")`. -/
def opKey (k : String) : Bool := strStartsWith k ("otk.op")

/-- Key classifier for `key.startswith("otk.external.")`. -/
def externalKey (k : String) : Bool := strStartsWith k ("otk.external.")

/-- Reading `tree[key]` from an insertion-ordered mapping. -/
def lookupD : List (String × Node) → String → Option Node
  | [], _ => none
  | (k, v) :: es, key => if k == key then some v else lookupD es key

/-- Writing `tree[key] = v` into an insertion-ordered mapping: an existing key
keeps its position and gets the new value, a new key is appended at the end,
exactly as for a Python `dict`. -/
def insertD : List (String × Node) → String → Node → List (String × Node)
  | [], key, v => [(key, v)]
  | (k, w) :: es, key, v =>
    if k == key then (key, v) :: es else (k, w) :: insertD es key v

/-- The snapshot `list(tree.keys())` taken before the dispatch loop. -/
def keysOf (es : List (String × Node)) : List String := es.map Prod.fst

/-- Recognise an interpolation template and extract the referenced name.
Modelled from the spec: the Interpolator contract only says a raw string is
expanded against the scope and may fail with UndefinedVariableError; we model
the minimal form, a whole-string reference written as a dollar sign and a
braced name. -/
def templateName (s : String) : Option String :=
  if strStartsWith s ("$\x7b") && strEndsWith s ("\x7d") && decide (4 ≤ s.data.length) then
    some (String.mk ((s.data.drop 2).dropLast))
  else none

/-- Modelled from the spec: `Interpolator.expand` (the `desugar` import from
the missing `directive` module).  A template resolves to the scope value of
its name or fails with UndefinedVariableError; any other string is returned
unchanged. -/
def desugar (sc : Scope) (s : String) : Except Err Node :=
  match templateName s with
  | some name =>
    match lookupD sc name with
    | some v => Except.ok v
    | none => Except.error Err.undefinedVariableError
  | none => Except.ok (Node.str s)

/-- Modelled from the spec: the External Bridge (`external.call`, whose module
is not part of the analysed source).  It is kept abstract as a parameter:
every theorem below holds for an arbitrary bridge. -/
structure Config where
  call : String → Node → Except Err Node

/-- A concrete bridge instance used by witnesses: every call returns an empty
mapping. -/
def cfg0 : Config := ⟨fun _ _ => Except.ok (Node.dict [])⟩

/-- The loop body of `resolve_list`: list comprehension over `resolve`,
aborting at the first error exactly as a raised exception would. -/
def listLoop (r : Node → Except Err Node) : List Node → Except Err (List Node)
  | [] => Except.ok []
  | v :: vs =>
    (r v) >>= fun v' => (listLoop r vs) >>= fun vs' => Except.ok (v' :: vs')

/-- The dispatch loop of `resolve_dict`, iterating over the key snapshot while
threading the current mapping.  Branches, in the source's `elif` order:

* `otk.define`: the source builds `ParserState(path=state.path,
  in_include=True)`, but `ParserState` has no field `in_include` (its fields
  are `path` and `in_define`), so the call raises `TypeError` before the
  `define` import is ever invoked.
* `otk.version`, `otk.target`: `pass`, the entry is left untouched.
* `otk.include`: the source first deletes the key and calls `include`, which
  resolves the payload with the same state and then evaluates
  `path / pathlib.Path(tree)`; the name `path` is undefined in that scope, so
  after the payload resolves the call raises `NameError` (the deleted key is
  unobservable because the error aborts the whole resolution; the unimported
  `copy` module two lines later is never reached).
* `otk.op`: the source evaluates `resolve(ctx, val)`, passing two arguments to
  the three-parameter `resolve`, which raises `TypeError` before the payload
  is resolved or the registry consulted.
* `otk.external.`: the payload is resolved with the current state, the bridge
  `call(key, ...)` runs on the full key, and then the outer `resolve(ctx, ...)`
  is again invoked with two arguments and raises `TypeError`.
* any other reserved key: the loop logs and returns the current mapping
  immediately (`return tree`), with no error.
* plain key: when `state.in_define` is true the source calls
  `define(key, val)`, handing a string where the directive helper expects the
  context; we model this as a type error, and the branch is unreachable from a
  false `in_define` start because the only assignment of that flag raises
  first.  Otherwise the value is resolved and written back.

A key missing from the mapping would be a Python `KeyError`; with the snapshot
taken from the mapping itself and no reachable deletion this cannot happen. -/
def dictLoop (r : Node → Except Err Node) (call : String → Node → Except Err Node)
    (st : ParserState) : List String → List (String × Node) → Except Err (List (String × Node))
  | [], cur => Except.ok cur
  | key :: ks, cur =>
    match lookupD cur key with
    | none => Except.error Err.pyKeyError
    | some val =>
      if otkKey key then
        if defineKey key then
          Except.error Err.pyTypeError
        else if versionKey key then
          dictLoop r call st ks cur
        else if targetKey key then
          dictLoop r call st ks cur
        else if includeKey key then
          (r val) >>= fun _ => Except.error Err.pyNameError
        else if opKey key then
          Except.error Err.pyTypeError
        else if externalKey key then
          (r val) >>= fun v => (call key v) >>= fun _ => Except.error Err.pyTypeError
        else
          Except.ok cur
      else
        if st.in_define then
          Except.error Err.pyTypeError
        else
          (r val) >>= fun v => dictLoop r call st ks (insertD cur key v)

/-- The resolver `resolve`: type dispatch to `resolve_dict`, `resolve_list`,
`resolve_str`, or identity on the remaining scalars, with one unit of fuel per
activation. -/
def resolveFuel (cfg : Config) : Nat → Scope → ParserState → Node → Except Err Node
  | 0, _, _, _ => Except.error Err.outOfFuel
  | fuel + 1, sc, st, t =>
    match t with
    | Node.dict es =>
      (dictLoop (resolveFuel cfg fuel sc st) cfg.call st (keysOf es) es).map Node.dict
    | Node.list xs => (listLoop (resolveFuel cfg fuel sc st) xs).map Node.list
    | Node.str s => desugar sc s
    | Node.num _ => Except.ok t
    | Node.bool _ => Except.ok t
    | Node.null => Except.ok t

/-- A top-level resolution session: the caller supplies the root tree, the
root path and the scope, with the defining flag initially false. -/
def resolveTop (cfg : Config) (fuel : Nat) (sc : Scope) (path : String) (t : Node) :
    Except Err Node :=
  resolveFuel cfg fuel sc ⟨path, false⟩ t

mutual

/-- Output invariant of the spec: every reserved-prefix key is a retained
`otk.version` or `otk.target.*` marker; marker values are retained verbatim
and therefore not inspected. -/
def goodOutN : Node → Bool
  | Node.dict es => goodOutE es
  | Node.list xs => goodOutL xs
  | _ => true

/-- Entry form of `goodOutN`. -/
def goodOutE : List (String × Node) → Bool
  | [] => true
  | (k, v) :: es =>
    (if otkKey k then versionKey k || targetKey k else goodOutN v) && goodOutE es

/-- Element form of `goodOutN`. -/
def goodOutL : List Node → Bool
  | [] => true
  | v :: vs => goodOutN v && goodOutL vs

end

mutual

/-- No unrecognized reserved key anywhere in the tree: every key with the
reserved prefix is one of the directive kinds the dispatcher knows. -/
def noUnknownN : Node → Bool
  | Node.dict es => noUnknownE es
  | Node.list xs => noUnknownL xs
  | _ => true

/-- Entry form of `noUnknownN`. -/
def noUnknownE : List (String × Node) → Bool
  | [] => true
  | (k, v) :: es =>
    (!otkKey k || (defineKey k || versionKey k || targetKey k || includeKey k
        || opKey k || externalKey k))
      && noUnknownN v && noUnknownE es

/-- Element form of `noUnknownN`. -/
def noUnknownL : List Node → Bool
  | [] => true
  | v :: vs => noUnknownN v && noUnknownL vs

end

/-- Membership test on key lists. -/
def memS (k : String) : List String → Bool
  | [] => false
  | x :: xs => k == x || memS k xs

/-- Key lists without duplicates, as holds for `list(d.keys())` of any Python
dict. -/
def dupFree : List String → Bool
  | [] => true
  | k :: ks => !memS k ks && dupFree ks

mutual

/-- Every mapping in the tree has pairwise distinct keys, as any tree parsed
from a Python dict does. -/
def nodupN : Node → Bool
  | Node.dict es => dupFree (keysOf es) && nodupE es
  | Node.list xs => nodupL xs
  | _ => true

/-- Entry form of `nodupN`. -/
def nodupE : List (String × Node) → Bool
  | [] => true
  | (_, v) :: es => nodupN v && nodupE es

/-- Element form of `nodupN`. -/
def nodupL : List Node → Bool
  | [] => true
  | v :: vs => nodupN v && nodupL vs

end

mutual

/-- Already-resolved trees: reserved keys are only `otk.version` or
`otk.target.*`, and every string the resolver would interpolate is left
unchanged by the Interpolator. -/
def stableN (sc : Scope) : Node → Bool
  | Node.dict es => stableE sc es
  | Node.list xs => stableL sc xs
  | Node.str s =>
    match desugar sc s with
    | Except.ok (Node.str t) => t == s
    | _ => false
  | _ => true

/-- Entry form of `stableN`. -/
def stableE (sc : Scope) : List (String × Node) → Bool
  | [] => true
  | (k, v) :: es =>
    (if otkKey k then versionKey k || targetKey k else stableN sc v) && stableE sc es

/-- Element form of `stableN`. -/
def stableL (sc : Scope) : List Node → Bool
  | [] => true
  | v :: vs => stableN sc v && stableL sc vs

end

/-- Every value bound in the scope satisfies the output invariant; needed
because interpolation can splice scope values into the output unresolved. -/
def scopeVals : Scope → Bool
  | [] => true
  | (_, v) :: sc => goodOutN v && scopeVals sc

/-- Decompose a successful prefix test into an append equation on character
data. -/
theorem prefixDecomp {k p : String} (h : strStartsWith k p = true) :
    ∃ t, p.data ++ t = k.data := by
  unfold strStartsWith at h
  exact List.isPrefixOf_iff_prefix.mp h

/-- A version key is reserved. -/
theorem otkKey_of_version {k : String} (h : versionKey k = true) : otkKey k = true := by
  have hk : k = ("otk.version") := eq_of_beq h
  subst hk; rfl

/-- A target key is reserved. -/
theorem otkKey_of_target {k : String} (h : targetKey k = true) : otkKey k = true := by
  obtain ⟨t, ht⟩ := prefixDecomp h
  unfold otkKey strStartsWith
  rw [← ht]; rfl

/-- An include key is reserved. -/
theorem otkKey_of_include {k : String} (h : includeKey k = true) : otkKey k = true := by
  obtain ⟨t, ht⟩ := prefixDecomp h
  unfold otkKey strStartsWith
  rw [← ht]; rfl

/-- A version key is not matched by the define prefix test. -/
theorem defineKey_false_of_version {k : String} (h : versionKey k = true) :
    defineKey k = false := by
  have hk : k = ("otk.version") := eq_of_beq h
  subst hk; rfl

/-- A target key is not matched by the define prefix test. -/
theorem defineKey_false_of_target {k : String} (h : targetKey k = true) :
    defineKey k = false := by
  obtain ⟨t, ht⟩ := prefixDecomp h
  unfold defineKey strStartsWith
  rw [← ht]; rfl

/-- An include key is not matched by the define prefix test. -/
theorem defineKey_false_of_include {k : String} (h : includeKey k = true) :
    defineKey k = false := by
  obtain ⟨t, ht⟩ := prefixDecomp h
  unfold defineKey strStartsWith
  rw [← ht]; rfl

/-- An include key is not the version key. -/
theorem versionKey_false_of_include {k : String} (h : includeKey k = true) :
    versionKey k = false := by
  rcases hv : versionKey k with _ | _
  · rfl
  · have hk : k = ("otk.version") := eq_of_beq hv
    subst hk
    exact absurd h (by decide)

/-- An include key is not matched by the target prefix test. -/
theorem targetKey_false_of_include {k : String} (h : includeKey k = true) :
    targetKey k = false := by
  obtain ⟨t, ht⟩ := prefixDecomp h
  unfold targetKey strStartsWith
  rw [← ht]; rfl

/-- Reading a key just written returns the written value. -/
theorem lookupD_insertD_self (es : List (String × Node)) (k : String) (v : Node) :
    lookupD (insertD es k v) k = some v := by
  induction es with
  | nil => simp [insertD, lookupD]
  | cons e es ih =>
    obtain ⟨k', w⟩ := e
    by_cases hk : k' = k
    · subst hk; simp [insertD, lookupD]
    · simp [insertD, lookupD, beq_eq_false_iff_ne.mpr hk, ih]

/-- Writing one key does not change the value read at another. -/
theorem lookupD_insertD_ne (es : List (String × Node)) {k k' : String} (v : Node)
    (h : k' ≠ k) : lookupD (insertD es k v) k' = lookupD es k' := by
  induction es with
  | nil => simp [insertD, lookupD, beq_eq_false_iff_ne.mpr (fun he => h he.symm)]
  | cons e es ih =>
    obtain ⟨k'', w⟩ := e
    by_cases hk : k'' = k
    · subst hk
      simp [insertD, lookupD, beq_eq_false_iff_ne.mpr (fun he => h he.symm)]
    · simp [insertD, lookupD, beq_eq_false_iff_ne.mpr hk, ih]

/-- Rewriting a key with the value it already holds leaves the mapping
unchanged. -/
theorem insertD_lookup_eq {es : List (String × Node)} {k : String} {v : Node}
    (h : lookupD es k = some v) : insertD es k v = es := by
  induction es with
  | nil => simp [lookupD] at h
  | cons e es ih =>
    obtain ⟨k', w⟩ := e
    by_cases hk : k' = k
    · subst hk
      simp [lookupD] at h
      simp [insertD, h]
    · simp [lookupD, beq_eq_false_iff_ne.mpr hk] at h
      simp [insertD, beq_eq_false_iff_ne.mpr hk, ih h]

/-- Writing an existing key preserves the key list. -/
theorem keysOf_insertD {es : List (String × Node)} {k : String}
    (h : (lookupD es k).isSome) (w : Node) : keysOf (insertD es k w) = keysOf es := by
  induction es with
  | nil => simp [lookupD] at h
  | cons e es ih =>
    obtain ⟨k', v'⟩ := e
    by_cases hk : k' = k
    · subst hk; simp [insertD, keysOf]
    · simp [lookupD, beq_eq_false_iff_ne.mpr hk] at h
      simp [insertD, beq_eq_false_iff_ne.mpr hk, keysOf] at ih ⊢
      exact ih h

/-- A successful read exhibits a member entry. -/
theorem lookupD_mem {es : List (String × Node)} {k : String} {v : Node}
    (h : lookupD es k = some v) : (k, v) ∈ es := by
  induction es with
  | nil => simp [lookupD] at h
  | cons e es ih =>
    obtain ⟨k', w⟩ := e
    by_cases hk : k' = k
    · subst hk
      simp [lookupD] at h
      simp [h]
    · simp [lookupD, beq_eq_false_iff_ne.mpr hk] at h
      exact List.mem_cons_of_mem _ (ih h)

/-- A successful read puts the key in the key list. -/
theorem mem_keysOf_of_lookupD {es : List (String × Node)} {k : String} {v : Node}
    (h : lookupD es k = some v) : k ∈ keysOf es := by
  have := lookupD_mem h
  exact List.mem_map.mpr ⟨(k, v), this, rfl⟩

/-- Every key of the key list can be read. -/
theorem lookupD_isSome_of_mem_keysOf {es : List (String × Node)} {k : String}
    (h : k ∈ keysOf es) : (lookupD es k).isSome := by
  induction es with
  | nil => simp [keysOf] at h
  | cons e es ih =>
    obtain ⟨k', w⟩ := e
    by_cases hk : k' = k
    · subst hk; simp [lookupD]
    · simp [keysOf] at h
      rcases h with h | h
      · exact absurd h.symm hk
      · simp [lookupD, beq_eq_false_iff_ne.mpr hk]
        exact ih (by simpa [keysOf] using h)

/-- Bool membership on key lists agrees with list membership. -/
theorem memS_iff {k : String} {l : List String} : memS k l = true ↔ k ∈ l := by
  induction l with
  | nil => simp [memS]
  | cons x xs ih =>
    simp [memS, ih, Bool.or_eq_true, beq_iff_eq]

/-- On a duplicate-free mapping, membership determines the read value. -/
theorem lookupD_of_mem_dupFree {es : List (String × Node)} {k : String} {v : Node}
    (hd : dupFree (keysOf es) = true) (h : (k, v) ∈ es) : lookupD es k = some v := by
  induction es with
  | nil => simp at h
  | cons e es ih =>
    obtain ⟨k', w⟩ := e
    simp [keysOf, dupFree, Bool.and_eq_true] at hd
    rcases List.mem_cons.mp h with h | h
    · injection h with h1 h2
      subst h1; subst h2
      simp [lookupD]
    · by_cases hk : k' = k
      · exfalso
        have hm : memS k' (List.map Prod.fst es) = true := by
          refine memS_iff.mpr ?_
          rw [hk]
          exact List.mem_map.mpr ⟨(k, v), h, rfl⟩
        rw [hd.1] at hm
        exact Bool.noConfusion hm
      · simp [lookupD, beq_eq_false_iff_ne.mpr hk]
        exact ih hd.2 h

/-- Bind on `Except` succeeds only through a successful first step. -/
theorem bind_ok_elim {α β : Type} {x : Except Err α} {f : α → Except Err β} {y : β}
    (h : (x >>= f) = Except.ok y) : ∃ a, x = Except.ok a ∧ f a = Except.ok y := by
  cases x with
  | error e => simp [Bind.bind, Except.bind] at h
  | ok a => exact ⟨a, rfl, h⟩

/-- Map on `Except` succeeds only on a success. -/
theorem map_ok_elim {α β : Type} {f : α → β} {x : Except Err α} {y : β}
    (h : Except.map f x = Except.ok y) : ∃ a, x = Except.ok a ∧ y = f a := by
  cases x with
  | error e => simp [Except.map] at h
  | ok a =>
    refine ⟨a, rfl, ?_⟩
    simp [Except.map] at h
    exact h.symm

mutual

/-- Nesting depth of a tree, bounding the fuel a resolution can consume. -/
def ndepth : Node → Nat
  | Node.dict es => edepth es + 1
  | Node.list xs => ldepth xs + 1
  | _ => 1

/-- Entry form of `ndepth`. -/
def edepth : List (String × Node) → Nat
  | [] => 0
  | (_, v) :: es => max (ndepth v) (edepth es)

/-- Element form of `ndepth`. -/
def ldepth : List Node → Nat
  | [] => 0
  | v :: vs => max (ndepth v) (ldepth vs)

end

/-- Every tree has positive depth. -/
theorem ndepth_pos (t : Node) : 1 ≤ ndepth t := by
  cases t <;> simp [ndepth]

/-- A mapping value is no deeper than the entry list. -/
theorem edepth_mem {es : List (String × Node)} {k : String} {v : Node}
    (h : (k, v) ∈ es) : ndepth v ≤ edepth es := by
  induction es with
  | nil => simp at h
  | cons e es ih =>
    obtain ⟨k', w⟩ := e
    rcases List.mem_cons.mp h with h | h
    · injection h with h1 h2
      subst h2
      simp [edepth]
    · simp [edepth]
      exact Or.inr (ih h)

/-- A sequence element is no deeper than the element list. -/
theorem ldepth_mem {xs : List Node} {v : Node} (h : v ∈ xs) : ndepth v ≤ ldepth xs := by
  induction xs with
  | nil => simp at h
  | cons x xs ih =>
    rcases List.mem_cons.mp h with h | h
    · subst h; simp [ldepth]
    · simp [ldepth]
      exact Or.inr (ih h)

/-- Key facts recorded by `stableE` about every entry of a stable mapping. -/
theorem stableE_key {sc : Scope} {es : List (String × Node)} {k : String} {v : Node}
    (hs : stableE sc es = true) (h : (k, v) ∈ es) (hotk : otkKey k = true) :
    (versionKey k || targetKey k) = true := by
  induction es with
  | nil => simp at h
  | cons e es ih =>
    obtain ⟨k', w⟩ := e
    rw [stableE, Bool.and_eq_true] at hs
    rcases List.mem_cons.mp h with h | h
    · injection h with h1 h2
      subst h1
      rw [hotk] at hs
      simpa using hs.1
    · exact ih hs.2 h

/-- Value facts recorded by `stableE` about every plain entry. -/
theorem stableE_val {sc : Scope} {es : List (String × Node)} {k : String} {v : Node}
    (hs : stableE sc es = true) (h : (k, v) ∈ es) (hotk : otkKey k = false) :
    stableN sc v = true := by
  induction es with
  | nil => simp at h
  | cons e es ih =>
    obtain ⟨k', w⟩ := e
    rw [stableE, Bool.and_eq_true] at hs
    rcases List.mem_cons.mp h with h | h
    · injection h with h1 h2
      subst h1; subst h2
      rw [hotk] at hs
      simpa using hs.1
    · exact ih hs.2 h

/-- Element facts recorded by `stableL`. -/
theorem stableL_mem {sc : Scope} {xs : List Node} {v : Node}
    (hs : stableL sc xs = true) (h : v ∈ xs) : stableN sc v = true := by
  induction xs with
  | nil => simp at h
  | cons x xs ih =>
    rw [stableL, Bool.and_eq_true] at hs
    rcases List.mem_cons.mp h with h | h
    · subst h; exact hs.1
    · exact ih hs.2 h

/-- Key facts recorded by `noUnknownE`: every reserved key is a known
directive kind. -/
theorem noUnknownE_key {es : List (String × Node)} {k : String} {v : Node}
    (hs : noUnknownE es = true) (h : (k, v) ∈ es) (hotk : otkKey k = true) :
    (defineKey k || versionKey k || targetKey k || includeKey k || opKey k
      || externalKey k) = true := by
  induction es with
  | nil => simp at h
  | cons e es ih =>
    obtain ⟨k', w⟩ := e
    rw [noUnknownE, Bool.and_eq_true, Bool.and_eq_true] at hs
    rcases List.mem_cons.mp h with h | h
    · injection h with h1 h2
      subst h1
      have := hs.1.1
      rw [hotk] at this
      simpa using this
    · exact ih hs.2 h

/-- Value facts recorded by `noUnknownE`. -/
theorem noUnknownE_val {es : List (String × Node)} {k : String} {v : Node}
    (hs : noUnknownE es = true) (h : (k, v) ∈ es) : noUnknownN v = true := by
  induction es with
  | nil => simp at h
  | cons e es ih =>
    obtain ⟨k', w⟩ := e
    rw [noUnknownE, Bool.and_eq_true, Bool.and_eq_true] at hs
    rcases List.mem_cons.mp h with h | h
    · injection h with h1 h2
      subst h2
      exact hs.1.2
    · exact ih hs.2 h

/-- Element facts recorded by `noUnknownL`. -/
theorem noUnknownL_mem {xs : List Node} {v : Node}
    (hs : noUnknownL xs = true) (h : v ∈ xs) : noUnknownN v = true := by
  induction xs with
  | nil => simp at h
  | cons x xs ih =>
    rw [noUnknownL, Bool.and_eq_true] at hs
    rcases List.mem_cons.mp h with h | h
    · subst h; exact hs.1
    · exact ih hs.2 h

/-- Value facts recorded by `nodupE`. -/
theorem nodupE_val {es : List (String × Node)} {k : String} {v : Node}
    (hs : nodupE es = true) (h : (k, v) ∈ es) : nodupN v = true := by
  induction es with
  | nil => simp at h
  | cons e es ih =>
    obtain ⟨k', w⟩ := e
    rw [nodupE, Bool.and_eq_true] at hs
    rcases List.mem_cons.mp h with h | h
    · injection h with h1 h2
      subst h2
      exact hs.1
    · exact ih hs.2 h

/-- Element facts recorded by `nodupL`. -/
theorem nodupL_mem {xs : List Node} {v : Node}
    (hs : nodupL xs = true) (h : v ∈ xs) : nodupN v = true := by
  induction xs with
  | nil => simp at h
  | cons x xs ih =>
    rw [nodupL, Bool.and_eq_true] at hs
    rcases List.mem_cons.mp h with h | h
    · subst h; exact hs.1
    · exact ih hs.2 h

/-- A scope whose values all satisfy the output invariant yields good values
on lookup. -/
theorem scopeVals_lookup {sc : Scope} {n : String} {v : Node}
    (hs : scopeVals sc = true) (h : lookupD sc n = some v) : goodOutN v = true := by
  induction sc with
  | nil => simp [lookupD] at h
  | cons e sc ih =>
    obtain ⟨k', w⟩ := e
    rw [scopeVals, Bool.and_eq_true] at hs
    by_cases hk : k' = n
    · subst hk
      simp [lookupD] at h
      subst h
      exact hs.1
    · simp [lookupD, beq_eq_false_iff_ne.mpr hk] at h
      exact ih hs.2 h

/-- Build `goodOutE` from per-entry facts. -/
theorem goodOutE_of_forall {es : List (String × Node)}
    (h1 : ∀ k v, (k, v) ∈ es → otkKey k = true → (versionKey k || targetKey k) = true)
    (h2 : ∀ k v, (k, v) ∈ es → otkKey k = false → goodOutN v = true) :
    goodOutE es = true := by
  induction es with
  | nil => rfl
  | cons e es ih =>
    obtain ⟨k', w⟩ := e
    rw [goodOutE, Bool.and_eq_true]
    constructor
    · rcases hotk : otkKey k' with _ | _
      · simpa [hotk] using h2 k' w (List.mem_cons_self _ _) hotk
      · simpa [hotk] using h1 k' w (List.mem_cons_self _ _) hotk
    · exact ih (fun k v hm => h1 k v (List.mem_cons_of_mem _ hm))
        (fun k v hm => h2 k v (List.mem_cons_of_mem _ hm))

/-- C1 counterexample: the mapping with the unrecognized reserved key
`otk.bogus` resolves successfully — the dispatcher logs and returns the tree
instead of failing with UnknownDirectiveError. -/
theorem c1_unknown_directive_no_error :
    resolveTop cfg0 5 [] ("") (Node.dict [("otk.bogus", Node.num 1)]) =
      Except.ok (Node.dict [("otk.bogus", Node.num 1)]) := rfl

/-- C1 (amended): on a mapping whose first key is an unrecognized reserved
key, resolution raises no error and returns the whole mapping unchanged — the
`else` branch of the dispatcher executes `return tree`. -/
theorem c1_unknown_directive_returns_mapping
    (cfg : Config) (fuel : Nat) (sc : Scope) (st : ParserState) (k : String) (v : Node)
    (es : List (String × Node))
    (hotk : otkKey k = true) (hdef : defineKey k = false) (hver : versionKey k = false)
    (htar : targetKey k = false) (hinc : includeKey k = false) (hop : opKey k = false)
    (hext : externalKey k = false) :
    resolveFuel cfg (fuel + 1) sc st (Node.dict ((k, v) :: es)) =
      Except.ok (Node.dict ((k, v) :: es)) := by
  simp [resolveFuel, keysOf, dictLoop, lookupD, hotk, hdef, hver, htar, hinc, hop, hext,
    Except.map]

/-- C1 witness: concrete instance of the amended statement, with an unresolved
sibling left behind. -/
theorem c1_unknown_directive_returns_mapping_witness :
    resolveFuel cfg0 1 [] ⟨"", false⟩
        (Node.dict [("otk.bogus", Node.num 1), ("x", Node.str "y")]) =
      Except.ok (Node.dict [("otk.bogus", Node.num 1), ("x", Node.str "y")]) :=
  c1_unknown_directive_returns_mapping cfg0 0 [] ⟨"", false⟩ ("otk.bogus") (Node.num 1)
    [("x", Node.str "y")] rfl rfl rfl rfl rfl rfl rfl

/-- C2: any mapping carrying `otk.define` fails with the modelled TypeError —
`resolve_dict` builds `ParserState(path=..., in_include=True)` although the
dataclass has no `in_include` field — so no entry is registered and no output
mapping is produced. -/
theorem c2_define_raises_type_error :
    resolveTop cfg0 5 [] ("")
        (Node.dict [("otk.define", Node.dict [("a", Node.num 1)])]) =
      Except.error Err.pyTypeError := rfl

/-- C4: the include directive of the claim's own example fails with the
modelled NameError — `include` evaluates `path / pathlib.Path(tree)` with
`path` undefined — instead of loading and merging the included subtree. -/
theorem c4_include_raises_name_error :
    resolveTop cfg0 5 [] ("")
        (Node.dict [("otk.include", Node.str "f"), ("b", Node.num 1)]) =
      Except.error Err.pyNameError := rfl

/-- C5 counterexample: a document that names itself as its include fails with
the modelled NameError, not with IncludeCycleError; no include chain is ever
tracked because every include fails before any file access. -/
theorem c5_self_include_no_cycle_error :
    resolveTop cfg0 100 [] ("self.yaml")
        (Node.dict [("otk.include", Node.str "self.yaml")]) =
      Except.error Err.pyNameError ∧ Err.pyNameError ≠ Err.includeCycleError :=
  ⟨rfl, by decide⟩

/-- C5 (amended): every include directive whose payload resolves fails
immediately with the modelled NameError — before any file is read, any path
canonicalised or any recursion into included content — so cyclic
self-inclusion cannot recurse and IncludeCycleError is never produced. -/
theorem c5_include_always_name_error
    (r : Node → Except Err Node) (call : String → Node → Except Err Node)
    (st : ParserState) (k : String) (ks : List String) (cur : List (String × Node))
    (val v : Node) (hinc : includeKey k = true) (hlk : lookupD cur k = some val)
    (hr : r val = Except.ok v) :
    dictLoop r call st (k :: ks) cur = Except.error Err.pyNameError := by
  have hotk := otkKey_of_include hinc
  have hdef := defineKey_false_of_include hinc
  have hver := versionKey_false_of_include hinc
  have htar := targetKey_false_of_include hinc
  simp [dictLoop, hlk, hotk, hdef, hver, htar, hinc, hr, Bind.bind, Except.bind]

/-- C5 witness: concrete instance of the amended statement. -/
theorem c5_include_always_name_error_witness :
    dictLoop (resolveFuel cfg0 3 [] ⟨"", false⟩) cfg0.call ⟨"", false⟩
        ["otk.include"] [("otk.include", Node.str "f")] =
      Except.error Err.pyNameError :=
  c5_include_always_name_error _ _ _ _ _ _ _ _ rfl rfl rfl

/-- C6: the order-sensitivity example fails on the code — the define-first
document raises the modelled TypeError (the `in_include` keyword slip) instead
of resolving `x` to 1, while the use-before-define document does fail with
UndefinedVariableError as the claim states. -/
theorem c6_order_sensitivity_broken_by_define :
    resolveTop cfg0 5 [] ("")
        (Node.dict [("otk.define", Node.dict [("a", Node.num 1)]),
          ("x", Node.str "$\x7ba\x7d")]) = Except.error Err.pyTypeError ∧
    resolveTop cfg0 5 [] ("")
        (Node.dict [("x", Node.str "$\x7ba\x7d"),
          ("otk.define", Node.dict [("a", Node.num 1)])]) =
      Except.error Err.undefinedVariableError := ⟨rfl, rfl⟩

/-- C8: both registry directives fail with the modelled TypeError — the `op`
branch calls `resolve(ctx, val)` without its `state` argument before the
payload is even resolved (second conjunct: an unresolvable payload still gives
TypeError, not its own error), and the `external` branch resolves the payload,
runs the bridge, then calls two-argument `resolve` on the result. -/
theorem c8_op_external_raise_type_error :
    resolveTop cfg0 5 [] ("") (Node.dict [("otk.op.join", Node.list [Node.num 1])]) =
      Except.error Err.pyTypeError ∧
    resolveTop cfg0 5 [] ("") (Node.dict [("otk.op.join", Node.str "$\x7bu\x7d")]) =
      Except.error Err.pyTypeError ∧
    resolveTop cfg0 5 [] ("") (Node.dict [("otk.external.name", Node.num 1)]) =
      Except.error Err.pyTypeError := ⟨rfl, rfl, rfl⟩

/-- C10: when the dispatch loop meets an unrecognized reserved key present in
the mapping, it raises no error and returns the current mapping immediately,
so every remaining snapshot key is left untouched and unresolved. -/
theorem c10_unknown_directive_partial_result
    (r : Node → Except Err Node) (call : String → Node → Except Err Node)
    (st : ParserState) (k : String) (ks : List String) (cur : List (String × Node))
    (v : Node)
    (hotk : otkKey k = true) (hdef : defineKey k = false) (hver : versionKey k = false)
    (htar : targetKey k = false) (hinc : includeKey k = false) (hop : opKey k = false)
    (hext : externalKey k = false) (hlk : lookupD cur k = some v) :
    dictLoop r call st (k :: ks) cur = Except.ok cur := by
  simp [dictLoop, hlk, hotk, hdef, hver, htar, hinc, hop, hext]

/-- C10 witness: the key after `otk.bogus` holds an unbound template that
would fail if it were resolved; the loop still succeeds and returns the
mapping as-is. -/
theorem c10_unknown_directive_partial_result_witness :
    dictLoop (resolveFuel cfg0 3 [] ⟨"", false⟩) cfg0.call ⟨"", false⟩
        ["otk.bogus", "x"]
        [("otk.bogus", Node.num 1), ("x", Node.str "$\x7bu\x7d")] =
      Except.ok [("otk.bogus", Node.num 1), ("x", Node.str "$\x7bu\x7d")] :=
  c10_unknown_directive_partial_result _ _ _ _ _ _ _ rfl rfl rfl rfl rfl rfl rfl rfl

/-- Marker preservation through the dispatch loop: a successful loop never
rewrites a `version` or `target` entry — those branches `pass`, plain keys are
distinct from reserved ones, and the remaining branches abort. -/
theorem dictLoop_preserves_marker
    (r : Node → Except Err Node) (call : String → Node → Except Err Node)
    (st : ParserState) (k : String) (v : Node)
    (hk : versionKey k = true ∨ targetKey k = true) :
    ∀ ks cur out, lookupD cur k = some v → dictLoop r call st ks cur = Except.ok out →
      lookupD out k = some v := by
  have hotk : otkKey k = true := hk.elim otkKey_of_version otkKey_of_target
  intro ks
  induction ks with
  | nil =>
    intro cur out hlk h
    rw [dictLoop] at h
    injection h with h
    rw [← h]
    exact hlk
  | cons key rest ih =>
    intro cur out hlk h
    rw [dictLoop] at h
    cases hl : lookupD cur key with
    | none =>
      rw [hl] at h
      exact absurd h (by simp)
    | some val =>
      rw [hl] at h
      rcases ho : otkKey key with _ | _
      · simp only [ho, Bool.false_eq_true, if_false] at h
        rcases hd : st.in_define with _ | _
        · simp only [hd, Bool.false_eq_true, if_false] at h
          obtain ⟨a, hra, h⟩ := bind_ok_elim h
          have hne : k ≠ key := by
            intro he
            rw [he, ho] at hotk
            exact Bool.noConfusion hotk
          refine ih (insertD cur key a) out ?_ h
          rw [lookupD_insertD_ne cur a hne]
          exact hlk
        · simp [hd] at h
      · simp only [ho, if_true] at h
        rcases hdef : defineKey key with _ | _
        · simp only [hdef, Bool.false_eq_true, if_false] at h
          rcases hver : versionKey key with _ | _
          · simp only [hver, Bool.false_eq_true, if_false] at h
            rcases htar : targetKey key with _ | _
            · simp only [htar, Bool.false_eq_true, if_false] at h
              rcases hinc : includeKey key with _ | _
              · simp only [hinc, Bool.false_eq_true, if_false] at h
                rcases hop : opKey key with _ | _
                · simp only [hop, Bool.false_eq_true, if_false] at h
                  rcases hext : externalKey key with _ | _
                  · simp only [hext, Bool.false_eq_true, if_false] at h
                    injection h with h
                    rw [← h]
                    exact hlk
                  · simp only [hext, if_true] at h
                    obtain ⟨a, hra, h⟩ := bind_ok_elim h
                    obtain ⟨b, hcb, h⟩ := bind_ok_elim h
                    exact absurd h (by simp)
                · simp [hop] at h
              · simp only [hinc, if_true] at h
                obtain ⟨a, hra, h⟩ := bind_ok_elim h
                exact absurd h (by simp)
            · simp only [htar, if_true] at h
              exact ih cur out hlk h
          · simp only [hver, if_true] at h
            exact ih cur out hlk h
        · simp [hdef] at h

/-- C7: a successful resolution of a mapping returns a mapping in which every
`otk.version` or `otk.target.*` entry still holds its original value verbatim
— the marker is retained and its payload is never resolved or interpolated. -/
theorem c7_version_target_retained
    (cfg : Config) (fuel : Nat) (sc : Scope) (st : ParserState)
    (es : List (String × Node)) (k : String) (v : Node) (out : Node)
    (hk : versionKey k = true ∨ targetKey k = true)
    (hlk : lookupD es k = some v)
    (h : resolveFuel cfg fuel sc st (Node.dict es) = Except.ok out) :
    ∃ es', out = Node.dict es' ∧ lookupD es' k = some v := by
  cases fuel with
  | zero => exact absurd h (by simp [resolveFuel])
  | succ fuel =>
    rw [resolveFuel] at h
    obtain ⟨es', hloop, hout⟩ := map_ok_elim h
    exact ⟨es', hout, dictLoop_preserves_marker _ _ _ k v hk _ es es' hlk hloop⟩

/-- C7 witness: the version marker's value is itself an interpolation template
over an empty scope; resolving it would fail, yet resolution succeeds and
returns the template verbatim. -/
theorem c7_version_target_retained_witness :
    ∃ es', Node.dict [("otk.version", Node.str "$\x7ba\x7d")] = Node.dict es' ∧
      lookupD es' ("otk.version") = some (Node.str "$\x7ba\x7d") :=
  c7_version_target_retained cfg0 2 [] ⟨"", false⟩
    [("otk.version", Node.str "$\x7ba\x7d")] ("otk.version") (Node.str "$\x7ba\x7d")
    (Node.dict [("otk.version", Node.str "$\x7ba\x7d")]) (Or.inl rfl) rfl rfl

/-- A list whose elements all resolve to themselves passes through the list
loop unchanged. -/
theorem listLoop_stable (r : Node → Except Err Node) :
    ∀ xs, (∀ v ∈ xs, r v = Except.ok v) → listLoop r xs = Except.ok xs := by
  intro xs
  induction xs with
  | nil => intro _; rfl
  | cons x xs ih =>
    intro h
    simp only [listLoop, h x (List.mem_cons_self x xs),
      ih (fun v hv => h v (List.mem_cons_of_mem _ hv))]
    rfl

/-- The dispatch loop fixes a mapping whose reserved keys are all markers and
whose plain values resolve to themselves. -/
theorem dictLoop_stable_id
    (r : Node → Except Err Node) (call : String → Node → Except Err Node)
    (st : ParserState) (hst : st.in_define = false) :
    ∀ ks es,
      (∀ k, k ∈ ks → (lookupD es k).isSome) →
      (∀ k v, lookupD es k = some v → otkKey k = true →
        (versionKey k || targetKey k) = true) →
      (∀ k v, lookupD es k = some v → otkKey k = false → r v = Except.ok v) →
      dictLoop r call st ks es = Except.ok es := by
  intro ks
  induction ks with
  | nil => intro es _ _ _; rfl
  | cons key rest ih =>
    intro es hks hkeys hvals
    rw [dictLoop]
    have hsome := hks key (List.mem_cons_self key rest)
    cases hl : lookupD es key with
    | none =>
      rw [hl] at hsome
      exact absurd hsome (by simp)
    | some val =>
      rcases ho : otkKey key with _ | _
      · simp only [ho, Bool.false_eq_true, if_false, hst]
        rw [hvals key val hl ho]
        show dictLoop r call st rest (insertD es key val) = Except.ok es
        rw [insertD_lookup_eq hl]
        exact ih es (fun k hk => hks k (List.mem_cons_of_mem _ hk)) hkeys hvals
      · have hvt := hkeys key val hl ho
        have hdef : defineKey key = false := by
          rw [Bool.or_eq_true] at hvt
          rcases hvt with hv | ht
          · exact defineKey_false_of_version hv
          · exact defineKey_false_of_target ht
        simp only [ho, if_true, hdef, Bool.false_eq_true, if_false]
        rcases hver : versionKey key with _ | _
        · have htar : targetKey key = true := by
            rw [Bool.or_eq_true] at hvt
            rcases hvt with hv | ht
            · rw [hver] at hv; exact Bool.noConfusion hv
            · exact ht
          simp only [hver, Bool.false_eq_true, if_false, htar, if_true]
          exact ih es (fun k hk => hks k (List.mem_cons_of_mem _ hk)) hkeys hvals
        · simp only [hver, if_true]
          exact ih es (fun k hk => hks k (List.mem_cons_of_mem _ hk)) hkeys hvals

/-- C9: resolution is the identity on trees that are already resolved — no
reserved keys besides `version`/`target.*` markers and every string left
unchanged by the Interpolator — given fuel at least the nesting depth. -/
theorem c9_idempotent_on_resolved_input
    (cfg : Config) (sc : Scope) (p : String) :
    ∀ fuel t, ndepth t ≤ fuel → stableN sc t = true →
      resolveFuel cfg fuel sc ⟨p, false⟩ t = Except.ok t := by
  intro fuel
  induction fuel with
  | zero =>
    intro t hd _
    exact absurd (le_trans (ndepth_pos t) hd) (by simp)
  | succ fuel ih =>
    intro t hd hs
    cases t with
    | str s =>
      rw [stableN] at hs
      cases hdes : desugar sc s with
      | error e =>
        rw [hdes] at hs
        exact absurd hs (by simp)
      | ok v =>
        rw [hdes] at hs
        cases v with
        | str t' =>
          have ht' : t' = s := eq_of_beq (by simpa using hs)
          show desugar sc s = Except.ok (Node.str s)
          rw [hdes, ht']
        | num n => exact absurd hs (by simp)
        | bool b => exact absurd hs (by simp)
        | null => exact absurd hs (by simp)
        | dict es => exact absurd hs (by simp)
        | list xs => exact absurd hs (by simp)
    | num n => rfl
    | bool b => rfl
    | null => rfl
    | list xs =>
      rw [resolveFuel]
      have hloop : listLoop (resolveFuel cfg fuel sc ⟨p, false⟩) xs = Except.ok xs := by
        refine listLoop_stable _ xs (fun v hv => ?_)
        refine ih v ?_ (stableL_mem (by simpa [stableN] using hs) hv)
        have h1 := ldepth_mem hv
        have h2 : ndepth (Node.list xs) ≤ fuel + 1 := hd
        rw [ndepth] at h2
        omega
      rw [hloop]
      rfl
    | dict es =>
      rw [resolveFuel]
      have hloop : dictLoop (resolveFuel cfg fuel sc ⟨p, false⟩) cfg.call ⟨p, false⟩
          (keysOf es) es = Except.ok es := by
        refine dictLoop_stable_id _ _ _ rfl (keysOf es) es ?_ ?_ ?_
        · exact fun k hk => lookupD_isSome_of_mem_keysOf hk
        · intro k v hlk hotk
          exact stableE_key (by simpa [stableN] using hs) (lookupD_mem hlk) hotk
        · intro k v hlk hotk
          have hm := lookupD_mem hlk
          refine ih v ?_ (stableE_val (by simpa [stableN] using hs) hm hotk)
          have h1 := edepth_mem hm
          have h2 : ndepth (Node.dict es) ≤ fuel + 1 := hd
          rw [ndepth] at h2
          omega
      rw [hloop]
      rfl

/-- C9 witness: a concrete already-resolved tree with a marker, a plain
string, a sequence and scalars is returned unchanged. -/
theorem c9_idempotent_on_resolved_input_witness :
    resolveFuel cfg0 10 [] ⟨"", false⟩
        (Node.dict [("x", Node.str "hi"), ("otk.version", Node.num 1),
          ("l", Node.list [Node.num 2, Node.bool true]), ("z", Node.null)]) =
      Except.ok (Node.dict [("x", Node.str "hi"), ("otk.version", Node.num 1),
        ("l", Node.list [Node.num 2, Node.bool true]), ("z", Node.null)]) :=
  c9_idempotent_on_resolved_input cfg0 [] ("") 10
    (Node.dict [("x", Node.str "hi"), ("otk.version", Node.num 1),
      ("l", Node.list [Node.num 2, Node.bool true]), ("z", Node.null)])
    (by decide) (by decide)

/-- Duplicate-free key lists decompose at a cons. -/
theorem dupFree_cons {k : String} {ks : List String} (h : dupFree (k :: ks) = true) :
    ¬ k ∈ ks ∧ dupFree ks = true := by
  rw [dupFree, Bool.and_eq_true] at h
  refine ⟨fun hm => ?_, h.2⟩
  have h1 := h.1
  simp [memS_iff.mpr hm] at h1

/-- A successful list loop maps good inputs to good outputs, given that the
element resolver does. -/
theorem listLoop_good (r : Node → Except Err Node)
    (hr : ∀ v out, nodupN v = true → noUnknownN v = true → r v = Except.ok out →
      goodOutN out = true) :
    ∀ xs ys, nodupL xs = true → noUnknownL xs = true → listLoop r xs = Except.ok ys →
      goodOutL ys = true := by
  intro xs
  induction xs with
  | nil =>
    intro ys _ _ h
    rw [listLoop] at h
    injection h with h
    rw [← h]
    rfl
  | cons x xs ih =>
    intro ys hnd hnu h
    rw [listLoop] at h
    obtain ⟨a, hra, h⟩ := bind_ok_elim h
    obtain ⟨as, has, h⟩ := bind_ok_elim h
    injection h with h
    rw [← h]
    rw [nodupL, Bool.and_eq_true] at hnd
    rw [noUnknownL, Bool.and_eq_true] at hnu
    rw [goodOutL, Bool.and_eq_true]
    exact ⟨hr x a hnd.1 hnu.1 hra, ih as hnd.2 hnu.2 has⟩

/-- Invariant of the dispatch loop: starting from a duplicate-free mapping
whose reserved keys are all known directive kinds, a successful loop run
leaves a mapping in which every reserved key is a retained marker and every
plain value satisfies the output invariant.  The invariants thread: keys still
to process hold raw subtrees, keys already processed hold good outputs, and
every reserved non-marker key is still unprocessed (it would have aborted the
loop otherwise). -/
theorem dictLoop_good
    (r : Node → Except Err Node) (call : String → Node → Except Err Node)
    (st : ParserState) (hst : st.in_define = false)
    (hr : ∀ v out, nodupN v = true → noUnknownN v = true → r v = Except.ok out →
      goodOutN out = true) :
    ∀ ks cur out,
      dupFree ks = true →
      dupFree (keysOf cur) = true →
      (∀ k, k ∈ keysOf cur → otkKey k = true →
        (defineKey k || versionKey k || targetKey k || includeKey k || opKey k
          || externalKey k) = true) →
      (∀ k v, lookupD cur k = some v → k ∈ ks →
        nodupN v = true ∧ noUnknownN v = true) →
      (∀ k v, lookupD cur k = some v → otkKey k = false → ¬ k ∈ ks →
        goodOutN v = true) →
      (∀ k, k ∈ keysOf cur → otkKey k = true → versionKey k = false →
        targetKey k = false → k ∈ ks) →
      dictLoop r call st ks cur = Except.ok out →
      goodOutE out = true := by
  intro ks
  induction ks with
  | nil =>
    intro cur out _ hdup hknown _ hdone hall h
    rw [dictLoop] at h
    injection h with h
    rw [← h]
    refine goodOutE_of_forall ?_ ?_
    · intro k v hm hotk
      have hkmem : k ∈ keysOf cur := List.mem_map.mpr ⟨(k, v), hm, rfl⟩
      rcases hv : versionKey k with _ | _
      · rcases ht : targetKey k with _ | _
        · exact absurd (hall k hkmem hotk hv ht) (by simp)
        · simp [ht]
      · simp [hv]
    · intro k v hm hotk
      exact hdone k v (lookupD_of_mem_dupFree hdup hm) hotk (by simp)
  | cons key rest ih =>
    intro cur out hdf hdup hknown hraw hdone hall h
    obtain ⟨hknotin, hdfrest⟩ := dupFree_cons hdf
    rw [dictLoop] at h
    cases hl : lookupD cur key with
    | none =>
      rw [hl] at h
      exact absurd h (by simp)
    | some val =>
      rw [hl] at h
      rcases ho : otkKey key with _ | _
      · simp only [ho, Bool.false_eq_true, if_false, hst] at h
        obtain ⟨a, hra, h⟩ := bind_ok_elim h
        have hrawv := hraw key val hl (List.mem_cons_self key rest)
        have hgood : goodOutN a = true := hr val a hrawv.1 hrawv.2 hra
        have hlsome : (lookupD cur key).isSome := by rw [hl]; rfl
        have hkeq : keysOf (insertD cur key a) = keysOf cur := keysOf_insertD hlsome a
        refine ih (insertD cur key a) out hdfrest ?_ ?_ ?_ ?_ ?_ h
        · rw [hkeq]; exact hdup
        · rw [hkeq]; exact hknown
        · intro k v hlk hkmem
          have hkne : k ≠ key := fun he => hknotin (he ▸ hkmem)
          rw [lookupD_insertD_ne cur a hkne] at hlk
          exact hraw k v hlk (List.mem_cons_of_mem _ hkmem)
        · intro k v hlk hotk hnotin
          by_cases hke : k = key
          · subst hke
            rw [lookupD_insertD_self] at hlk
            injection hlk with hlk
            rw [← hlk]
            exact hgood
          · rw [lookupD_insertD_ne cur a hke] at hlk
            refine hdone k v hlk hotk ?_
            intro hmem
            rcases List.mem_cons.mp hmem with he | hm
            · exact hke he
            · exact hnotin hm
        · intro k hkmem hotk hv ht
          rw [hkeq] at hkmem
          have hmem := hall k hkmem hotk hv ht
          rcases List.mem_cons.mp hmem with he | hm
          · exfalso; rw [he, ho] at hotk; exact Bool.noConfusion hotk
          · exact hm
      · simp only [ho, if_true] at h
        have hkeymem : key ∈ keysOf cur :=
          List.mem_map.mpr ⟨(key, val), lookupD_mem hl, rfl⟩
        rcases hdef : defineKey key with _ | _
        · simp only [hdef, Bool.false_eq_true, if_false] at h
          rcases hver : versionKey key with _ | _
          · simp only [hver, Bool.false_eq_true, if_false] at h
            rcases htar : targetKey key with _ | _
            · simp only [htar, Bool.false_eq_true, if_false] at h
              rcases hinc : includeKey key with _ | _
              · simp only [hinc, Bool.false_eq_true, if_false] at h
                rcases hop : opKey key with _ | _
                · simp only [hop, Bool.false_eq_true, if_false] at h
                  rcases hext : externalKey key with _ | _
                  · exfalso
                    have hu := hknown key hkeymem ho
                    rw [hdef, hver, htar, hinc, hop, hext] at hu
                    simp at hu
                  · simp only [hext, if_true] at h
                    obtain ⟨a, _, h⟩ := bind_ok_elim h
                    obtain ⟨b, _, h⟩ := bind_ok_elim h
                    exact absurd h (by simp)
                · simp [hop] at h
              · simp only [hinc, if_true] at h
                obtain ⟨a, _, h⟩ := bind_ok_elim h
                exact absurd h (by simp)
            · simp only [htar, if_true] at h
              refine ih cur out hdfrest hdup hknown ?_ ?_ ?_ h
              · intro k v hlk hkmem
                exact hraw k v hlk (List.mem_cons_of_mem _ hkmem)
              · intro k v hlk hotk hnotin
                refine hdone k v hlk hotk ?_
                intro hmem
                rcases List.mem_cons.mp hmem with he | hm
                · rw [he, ho] at hotk; exact Bool.noConfusion hotk
                · exact hnotin hm
              · intro k hkmem hotk hv ht
                have hmem := hall k hkmem hotk hv ht
                rcases List.mem_cons.mp hmem with he | hm
                · exfalso; rw [he, htar] at ht; exact Bool.noConfusion ht
                · exact hm
          · simp only [hver, if_true] at h
            refine ih cur out hdfrest hdup hknown ?_ ?_ ?_ h
            · intro k v hlk hkmem
              exact hraw k v hlk (List.mem_cons_of_mem _ hkmem)
            · intro k v hlk hotk hnotin
              refine hdone k v hlk hotk ?_
              intro hmem
              rcases List.mem_cons.mp hmem with he | hm
              · rw [he, ho] at hotk; exact Bool.noConfusion hotk
              · exact hnotin hm
            · intro k hkmem hotk hv ht
              have hmem := hall k hkmem hotk hv ht
              rcases List.mem_cons.mp hmem with he | hm
              · exfalso; rw [he, hver] at hv; exact Bool.noConfusion hv
              · exact hm
        · simp [hdef] at h

/-- C3 counterexample: a mapping with the unrecognized reserved key `otk.foo`
resolves successfully, and the output still contains that reserved key (and
the keys after it, unresolved) — it violates the no-reserved-keys output
invariant. -/
theorem c3_reserved_key_survives :
    resolveTop cfg0 5 [] ("")
        (Node.dict [("x", Node.num 3), ("otk.foo", Node.num 1),
          ("y", Node.str "$\x7ba\x7d")]) =
      Except.ok (Node.dict [("x", Node.num 3), ("otk.foo", Node.num 1),
        ("y", Node.str "$\x7ba\x7d")]) ∧
    goodOutN (Node.dict [("x", Node.num 3), ("otk.foo", Node.num 1),
      ("y", Node.str "$\x7ba\x7d")]) = false := ⟨rfl, rfl⟩

/-- C3 (amended): for trees with duplicate-free mappings and no unrecognized
reserved keys, over a scope whose values satisfy the output invariant, a
successful resolution yields a tree whose reserved-prefix keys are only
retained `otk.version`/`otk.target.*` markers.  The restrictions are forced by
the code: unrecognized reserved keys are returned unresolved (counterexample),
and the define/include/op/external keys need not be removed because reaching
any of them aborts the resolution. -/
theorem c3_success_output_only_markers
    (cfg : Config) (sc : Scope) (p : String) (hsc : scopeVals sc = true) :
    ∀ fuel t out, nodupN t = true → noUnknownN t = true →
      resolveFuel cfg fuel sc ⟨p, false⟩ t = Except.ok out →
      goodOutN out = true := by
  intro fuel
  induction fuel with
  | zero =>
    intro t out _ _ h
    exact absurd h (by simp [resolveFuel])
  | succ fuel ih =>
    intro t out hnd hnu h
    cases t with
    | str s =>
      rw [resolveFuel, desugar] at h
      cases htn : templateName s with
      | none =>
        simp only [htn] at h
        injection h with h
        rw [← h]
        rfl
      | some name =>
        simp only [htn] at h
        cases hlk : lookupD sc name with
        | none =>
          simp only [hlk] at h
          exact absurd h (by simp)
        | some v =>
          simp only [hlk] at h
          injection h with h
          rw [← h]
          exact scopeVals_lookup hsc hlk
    | num n =>
      rw [resolveFuel] at h
      injection h with h
      rw [← h]
      rfl
    | bool b =>
      rw [resolveFuel] at h
      injection h with h
      rw [← h]
      rfl
    | null =>
      rw [resolveFuel] at h
      injection h with h
      rw [← h]
      rfl
    | list xs =>
      rw [resolveFuel] at h
      obtain ⟨ys, hys, hout⟩ := map_ok_elim h
      rw [hout]
      show goodOutN (Node.list ys) = true
      rw [goodOutN]
      refine listLoop_good _ ?_ xs ys ?_ ?_ hys
      · intro v o hv1 hv2 hro
        exact ih v o hv1 hv2 hro
      · simpa [nodupN] using hnd
      · simpa [noUnknownN] using hnu
    | dict es =>
      rw [resolveFuel] at h
      obtain ⟨es', hes, hout⟩ := map_ok_elim h
      rw [hout]
      show goodOutN (Node.dict es') = true
      rw [goodOutN]
      rw [nodupN, Bool.and_eq_true] at hnd
      refine dictLoop_good _ _ _ rfl ?_ (keysOf es) es es' hnd.1 hnd.1 ?_ ?_ ?_ ?_ hes
      · intro v o hv1 hv2 hro
        exact ih v o hv1 hv2 hro
      · intro k hkm hotk
        rw [keysOf] at hkm
        obtain ⟨pair, hm, he⟩ := List.mem_map.mp hkm
        obtain ⟨k', v⟩ := pair
        have hk' : k' = k := he
        subst hk'
        exact noUnknownE_key (by simpa [noUnknownN] using hnu) hm hotk
      · intro k v hlk _
        have hm := lookupD_mem hlk
        exact ⟨nodupE_val hnd.2 hm, noUnknownE_val (by simpa [noUnknownN] using hnu) hm⟩
      · intro k v hlk _ hnotin
        exact absurd (mem_keysOf_of_lookupD hlk) hnotin
      · intro k hkm _ _ _
        exact hkm

/-- C3 witness: a tree with a retained marker, a plain nested mapping and an
interpolated string over a good scope resolves to an output satisfying the
invariant. -/
theorem c3_success_output_only_markers_witness :
    goodOutN (Node.dict [("otk.version", Node.num 1),
      ("a", Node.dict [("b", Node.num 7)]), ("s", Node.num 9)]) = true :=
  c3_success_output_only_markers cfg0 [("v", Node.num 9)] ("") rfl 5
    (Node.dict [("otk.version", Node.num 1), ("a", Node.dict [("b", Node.num 7)]),
      ("s", Node.str "$\x7bv\x7d")])
    (Node.dict [("otk.version", Node.num 1), ("a", Node.dict [("b", Node.num 7)]),
      ("s", Node.num 9)]) rfl rfl rfl
